import Mathlib

/-!
Shallow embedding of `extract_requirements2.py` (RequirementsExtractor).

Python strings are modelled as `List Char`; the Python method `str.lower` is modelled with
`Char.toLower` (ASCII case folding), `str.split()` as splitting on whitespace runs,
`str.replace` as leftmost non-overlapping global replacement, the whitespace-run
regex substitution as collapsing whitespace runs to a single space, and the
non-alphanumeric-stripping regex substitution as filtering to alphanumeric characters.

The external linguistic engine (spaCy) and the sentence tokenizer (NLTK) are out of
scope per the specification; they enter as parameters producing parsed documents
(`Doc`) and sentence lists.  All in-repository logic is translated from the source.
-/

abbrev Str := List Char

def str (s : String) : Str := s.data

/-- Python `s.lower()` (ASCII case folding). -/
def lower (s : Str) : Str := s.map Char.toLower

/-- Python `pat in s` (substring test). -/
def containsSub : Str → Str → Bool
  | [], pat => pat.isEmpty
  | c :: t, pat => List.isPrefixOf pat (c :: t) || containsSub t pat

/-- Python `s.split()`: whitespace-delimited words, empty strings discarded. -/
def words : Str → List Str
  | [] => []
  | [c] => if c.isWhitespace then [] else [[c]]
  | c :: d :: cs =>
    if c.isWhitespace then words (d :: cs)
    else if d.isWhitespace then [c] :: words (d :: cs)
    else
      match words (d :: cs) with
      | [] => [[c]]
      | w :: ws => (c :: w) :: ws

/-- Python regex substitution collapsing each whitespace run to a single space. -/
def collapseWs : Str → Str
  | [] => []
  | [c] => if c.isWhitespace then [' '] else [c]
  | c :: d :: cs =>
    if c.isWhitespace then
      (if d.isWhitespace then collapseWs (d :: cs) else ' ' :: collapseWs (d :: cs))
    else c :: collapseWs (d :: cs)

/-- Python `s.strip()`. -/
def pyStrip (s : Str) : Str :=
  ((s.dropWhile Char.isWhitespace).reverse.dropWhile Char.isWhitespace).reverse

/-- Fuel-driven scanner realizing Python `s.replace(pat, rep)`:
leftmost match is replaced, scanning resumes after the replacement. -/
def replaceGo (pat rep : Str) : Nat → Str → Str
  | _, [] => []
  | 0, s => s
  | f + 1, c :: cs =>
    if List.isPrefixOf pat (c :: cs) then
      rep ++ replaceGo pat rep f (cs.drop (pat.length - 1))
    else
      c :: replaceGo pat rep f cs

/-- Python `s.replace(pat, rep)` (`pat` nonempty in all uses below). -/
def pyReplace (s pat rep : Str) : Str := replaceGo pat rep s.length s

/-- Python regex substitution removing every non-alphanumeric character. -/
def keepAlnum (s : Str) : Str := s.filter Char.isAlphanum

/- ### Data model -/

/-- One token of the engine parse: surface text, lemma, coarse POS tag,
dependency label, and the index of its syntactic head in the token list. -/
structure Token where
  text : Str
  lemma_ : Str
  pos_ : Str
  dep_ : Str
  head : Nat
deriving DecidableEq

instance : Inhabited Token := ⟨⟨[], [], [], [], 0⟩⟩

/-- A noun chunk: its text and the index of its root token. -/
structure Chunk where
  text : Str
  root : Nat
deriving DecidableEq

/-- A parsed sentence from the engine: tokens, noun chunks, entity texts. -/
structure Doc where
  tokens : List Token
  chunks : List Chunk
  ents : List Str
deriving DecidableEq

def rootTokOf (d : Doc) (c : Chunk) : Token := d.tokens.getD c.root default

def headTokOf (d : Doc) (t : Token) : Token := d.tokens.getD t.head default

/-- The feature record built per sentence by `extract_features`. -/
structure Feature where
  sentence : Str
  verbs : List Str
  action_verbs : List Str
  nouns : List Str
  entities : List Str
  svo_patterns : List (Str × Str × Str)
  modals : List Str
  doc : Doc
deriving DecidableEq

/-- One classified requirement, as assembled by `classify_requirements`. -/
structure Classified where
  requirement : Str
  stakeholder : Str
  type : Str
  categories : List Str
deriving DecidableEq

/- ### Vocabularies (embedded constants of the source) -/

def action_vocab : List Str :=
  [str "allow", str "enable", str "provide", str "support", str "manage", str "monitor",
   str "check", str "view", str "book", str "pay", str "receive", str "create",
   str "track", str "generate"]

def modal_vocab : List Str :=
  [str "should", str "must", str "will", str "can", str "could"]

def requirement_keywords : List Str :=
  [str "need", str "require", str "must", str "should", str "allow", str "enable",
   str "access", str "view", str "book", str "reserve"]

def system_components : List Str :=
  [str "machine", str "payment", str "reservation", str "notification", str "camera",
   str "account", str "feedback", str "review"]

def user_roles : List Str :=
  [str "customer", str "client", str "user", str "administrator", str "owner"]

def customer_actor_words : List Str := [str "customer", str "client", str "user"]

def admin_actor_words : List Str := [str "administrator", str "admin", str "owner"]

def approved_leads : List Str :=
  [str "the system shall", str "the customer should", str "the administrator should"]

def non_functional_keywords : List Str :=
  [str "performance", str "security", str "reliability", str "usability",
   str "maintainability"]

def category_keywords : List (Str × List Str) :=
  [(str "Washing/Drying", [str "machine", str "washer", str "dryer", str "washing", str "drying"]),
   (str "Security", [str "security", str "camera", str "monitor", str "surveillance"]),
   (str "Scheduling", [str "schedule", str "booking", str "reservation", str "book", str "reserve"]),
   (str "Payment", [str "payment", str "pay", str "coin", str "card", str "credit", str "debit"]),
   (str "Reporting", [str "report", str "record", str "track", str "log"]),
   (str "Communication", [str "communicate", str "notification", str "alert", str "message"]),
   (str "Feedback", [str "feedback", str "review", str "comment", str "rating"])]

/- ### Segmenter (`preprocess_text`) -/

/-- Source `preprocess_text`: collapse whitespace, tokenize into sentences via the external
tokenizer `st`, keep sentences with more than 5 whitespace-delimited words. -/
def preprocess_text (st : Str → List Str) (text : Str) : List Str :=
  (st (collapseWs text)).filter (fun s => 5 < (words s).length)

/- ### Feature extractor (`extract_features`) -/

def featureOf (nlp : Str → Doc) (sentence : Str) : Feature :=
  let doc := nlp sentence
  let verbs := (doc.tokens.filter (fun t => t.pos_ == str "VERB")).map Token.lemma_
  let action_verbs := verbs.filter (fun v => action_vocab.contains v)
  let nouns := (doc.tokens.filter (fun t => t.pos_ == str "NOUN")).map Token.text
  let entities := doc.ents
  let svo_patterns := doc.chunks.flatMap (fun chunk =>
    let rt := rootTokOf doc chunk
    if rt.dep_ == str "nsubj" && (headTokOf doc rt).pos_ == str "VERB" then
      (doc.tokens.filter
        (fun t => t.head == rt.head && (t.dep_ == str "dobj" || t.dep_ == str "pobj"))).map
        (fun t => (chunk.text, (headTokOf doc rt).lemma_, t.text))
    else [])
  let modals := (doc.tokens.filter
    (fun t => t.dep_ == str "aux" && modal_vocab.contains (lower t.text))).map Token.text
  ⟨sentence, verbs, action_verbs, nouns, entities, svo_patterns, modals, doc⟩

def extract_features (nlp : Str → Doc) (sentences : List Str) : List Feature :=
  sentences.map (featureOf nlp)

/- ### Requirement scorer (`identify_potential_requirements`) -/

def req_score (f : Feature) : Nat :=
  (if ¬ f.action_verbs.isEmpty then f.action_verbs.length * 2 else 0) +
  (if ¬ f.modals.isEmpty then f.modals.length * 3 else 0) +
  (if ¬ f.svo_patterns.isEmpty then f.svo_patterns.length * 2 else 0) +
  (if requirement_keywords.any (fun k => containsSub (lower f.sentence) k) then 3 else 0) +
  (if system_components.any (fun k => containsSub (lower f.sentence) k) then 2 else 0) +
  (if user_roles.any (fun k => containsSub (lower f.sentence) k) then 2 else 0)

/-- The comparison used by `potential_reqs.sort(key=req_score, reverse=True)`:
Python sorts are stable, so this is a stable descending sort by score. -/
def scoreDesc (a b : Feature) : Bool := req_score b ≤ req_score a

def identify_potential_requirements (features : List Feature) : List Feature :=
  (features.mergeSort scoreDesc).filter (fun f => 3 < req_score f)

/- ### Requirement formulator (`formulate_requirements`) -/

def actorsOf (f : Feature) : List Str :=
  (f.doc.chunks.filter (fun c => (rootTokOf f.doc c).dep_ == str "nsubj")).map Chunk.text

/-- Source `primary_actor` selection; the generator `for actor in actors if actor` skips empty strings. -/
def primary_actor (f : Feature) : Str :=
  if (actorsOf f).any (fun a => !a.isEmpty && customer_actor_words.contains (lower a)) then
    str "The customer"
  else if (actorsOf f).any (fun a => !a.isEmpty && admin_actor_words.contains (lower a)) then
    str "The administrator"
  else
    str "The system"

/-- Source line `actions = req["action_verbs"] if req["action_verbs"] else req["verbs"]`. -/
def actionsOf (f : Feature) : List Str :=
  if f.action_verbs.isEmpty then f.verbs else f.action_verbs

/-- Source line `action = actions[0] if actions else "support"`. -/
def actionOf (f : Feature) : Str := (actionsOf f).headD (str "support")

def objectsOf (f : Feature) : List Str :=
  (f.doc.chunks.filter
    (fun c => (rootTokOf f.doc c).dep_ == str "dobj" || (rootTokOf f.doc c).dep_ == str "pobj")).map
    Chunk.text

/-- The template chosen by the `if actors and actions and objects` branch. -/
def draftOf (f : Feature) : Str :=
  if !(actorsOf f).isEmpty && !(actionsOf f).isEmpty && !(objectsOf f).isEmpty then
    primary_actor f ++ str " shall " ++ actionOf f ++ str " " ++ (objectsOf f).headD []
  else
    primary_actor f ++ str " shall " ++ actionOf f ++ str " " ++ lower f.sentence

def endsWithDot (s : Str) : Bool := s.getLast? == some '.'

/-- The trailing loop appending `" for {chunk}"` per `pobj` chunk not yet present. -/
def appendContext (d : Doc) (init : Str) : Str :=
  d.chunks.foldl
    (fun req c =>
      if (rootTokOf d c).dep_ == str "pobj" && !containsSub req c.text && !endsWithDot req then
        req ++ str " for " ++ c.text
      else req)
    init

def formulate_one (f : Feature) : Str :=
  appendContext f.doc (pyStrip (pyReplace (draftOf f) (str "  ") (str " ")))

def formulate_requirements (reqs : List Feature) : List Str := reqs.map formulate_one

/- ### Refiner (`refine_requirements`) -/

/-- Source: the comparison key strips every non-alphanumeric character of the lowercased draft. -/
def simpleKey (r : Str) : Str := keepAlnum (lower r)

/-- The dedup loop: keep the first draft per key, drafts of at most 4 words dropped. -/
def dedupLoop (seen : List Str) : List Str → List Str
  | [] => []
  | r :: rs =>
    if !seen.contains (simpleKey r) && 4 < (words r).length then
      r :: dedupLoop (simpleKey r :: seen) rs
    else
      dedupLoop seen rs

def startsApproved (r : Str) : Bool :=
  approved_leads.any (fun p => List.isPrefixOf p (lower r))

def fix1pat : Str := str " should be able to be able to "
def fix1rep : Str := str " should be able to "
def fix2pat : Str := str " should should "
def fix2rep : Str := str " should "
def fix3pat : Str := str " shall shall "
def fix3rep : Str := str " shall "

def applyFixups (s : Str) : Str :=
  pyReplace (pyReplace (pyReplace s fix1pat fix1rep) fix2pat fix2rep) fix3pat fix3rep

def ensureDot (s : Str) : Str := if endsWithDot s then s else s ++ ['.']

def ensureLead (s : Str) : Str :=
  if startsApproved s then s else str "The system shall " ++ s

/-- The per-draft normalization of the second loop of `refine_requirements`. -/
def normalizeReq (r : Str) : Str := applyFixups (ensureDot (ensureLead r))

def refine_requirements (formulated : List Str) : List Str :=
  (dedupLoop [] formulated).map normalizeReq

/- ### Classifier (`classify_requirements`) -/

def stakeholderOf (r : Str) : Str :=
  if containsSub (lower r) (str "customer") || containsSub (lower r) (str "client") ||
      containsSub (lower r) (str "user") then
    str "Customer"
  else if containsSub (lower r) (str "administrator") || containsSub (lower r) (str "admin") ||
      containsSub (lower r) (str "owner") then
    str "Administrator"
  else
    str "System"

def typeOf (r : Str) : Str :=
  if non_functional_keywords.any (fun k => containsSub (lower r) k) then
    str "Non-functional"
  else
    str "Functional"

def rawCategoriesOf (r : Str) : List Str :=
  (category_keywords.filter (fun p => p.2.any (fun k => containsSub (lower r) k))).map Prod.fst

def categoriesOf (r : Str) : List Str :=
  if (rawCategoriesOf r).isEmpty then [str "General"] else rawCategoriesOf r

/-- Loop body of `classify_requirements`; the engine call `self.nlp(req)` in the
source binds a `doc` that is never used, so it has no observable effect here. -/
def classify_one (r : Str) : Classified :=
  ⟨r, stakeholderOf r, typeOf r, categoriesOf r⟩

def classify_requirements (refined : List Str) : List Classified :=
  refined.map classify_one

/- ### Pipeline (`extract_requirements`, `extract_and_format`) -/

def extract_requirements (st : Str → List Str) (nlp : Str → Doc) (description : Str) :
    List Classified :=
  classify_requirements (refine_requirements (formulate_requirements
    (identify_potential_requirements (extract_features nlp (preprocess_text st description)))))

def extract_and_format (st : Str → List Str) (nlp : Str → Doc) (description : Str) :
    List Str :=
  let classified := extract_requirements st nlp description
  ((classified.filter (fun r => r.stakeholder == str "Customer")).map Classified.requirement) ++
  ((classified.filter (fun r => r.stakeholder == str "Administrator")).map Classified.requirement) ++
  ((classified.filter (fun r => r.stakeholder == str "System")).map Classified.requirement)

/- ### Helper lemmas: prefixes and `pyReplace` -/

theorem isPre_iff {p s : Str} : List.isPrefixOf p s = true ↔ p <+: s :=
  List.isPrefixOf_iff_prefix

theorem take_of_pre {p s : Str} (h : p <+: s) : s.take p.length = p := by
  obtain ⟨t, rfl⟩ := h
  exact List.take_left p t

theorem pre_of_take {p s : Str} (h : s.take p.length = p) : p <+: s := by
  refine ⟨s.drop p.length, ?_⟩
  nth_rewrite 1 [← h]
  exact List.take_append_drop _ s

theorem not_pre_append {pat c : Str} (h1 : ¬ pat <+: c) (h2 : ¬ c <+: pat) (t : Str) :
    ¬ pat <+: c ++ t := by
  intro h
  rcases Nat.le_total pat.length c.length with hle | hle
  · exact h1 (pre_of_take (by rw [← List.take_append_of_le_length hle, take_of_pre h]))
  · refine h2 (pre_of_take ?_)
    obtain ⟨u, hu⟩ := h
    rw [← List.take_append_of_le_length hle, hu, List.take_left]

theorem replaceGo_take {pat rep : Str} (hrep : rep <+: pat) :
    ∀ (f : Nat) (s : Str) (k : Nat), s.length ≤ f →
      (∀ i, i + rep.length < k → ¬ pat <+: s.drop i) →
      (replaceGo pat rep f s).take k = s.take k
  | 0, s, k, hf, _ => by
    have hs : s = [] := List.eq_nil_of_length_eq_zero (Nat.le_zero.mp hf)
    subst hs; rfl
  | f + 1, [], k, _, _ => rfl
  | f + 1, c :: cs, k, hf, h => by
    by_cases hm : List.isPrefixOf pat (c :: cs)
    · have hps : pat <+: c :: cs := isPre_iff.mp hm
      have hk : k ≤ rep.length := by
        by_contra hk
        exact h 0 (by omega) (by simpa using hps)
      have hkp : k ≤ pat.length := by
        obtain ⟨e, he⟩ := hrep
        have := congrArg List.length he
        simp at this
        omega
      simp only [replaceGo, if_pos hm]
      rw [List.take_append_of_le_length hk]
      obtain ⟨e, he⟩ := hrep
      obtain ⟨u, hu⟩ := hps
      calc rep.take k = (rep ++ e).take k := (List.take_append_of_le_length hk).symm
        _ = pat.take k := by rw [he]
        _ = (pat ++ u).take k := (List.take_append_of_le_length hkp).symm
        _ = (c :: cs).take k := by rw [hu]
    · simp only [replaceGo, if_neg hm]
      cases k with
      | zero => simp
      | succ k' =>
        simp only [List.take_succ_cons]
        congr 1
        apply replaceGo_take hrep f cs k' (by simp at hf; omega)
        intro i hi
        have := h (i + 1) (by omega)
        simpa using this

theorem pyReplace_take {s pat rep : Str} (k : Nat) (hrep : rep <+: pat)
    (h : ∀ i, i + rep.length < k → ¬ pat <+: s.drop i) :
    (pyReplace s pat rep).take k = s.take k :=
  replaceGo_take hrep s.length s k (Nat.le_refl _) h

theorem replaceGo_dot {pat rep : Str} (hpne : pat ≠ []) (hd : '.' ∉ pat) :
    ∀ (f : Nat) (s : Str), s.length ≤ f → s.getLast? = some '.' →
      (replaceGo pat rep f s).getLast? = some '.'
  | 0, s, hf, hl => by
    have hs : s = [] := List.eq_nil_of_length_eq_zero (Nat.le_zero.mp hf)
    subst hs; simp at hl
  | f + 1, [], _, hl => by simp at hl
  | f + 1, c :: cs, hf, hl => by
    by_cases hm : List.isPrefixOf pat (c :: cs)
    · have hps : pat <+: c :: cs := isPre_iff.mp hm
      obtain ⟨u, hu⟩ := hps
      have hrest : cs.drop (pat.length - 1) = u := by
        have hdu : (c :: cs).drop pat.length = u := by rw [← hu, List.drop_left]
        cases hp : pat with
        | nil => exact absurd hp hpne
        | cons a as => rw [hp] at hdu; simpa using hdu
      have hune : u ≠ [] := by
        intro h0
        subst h0
        rw [List.append_nil] at hu
        rw [← hu] at hl
        exact hd (List.mem_of_getLast?_eq_some hl)
      have hul : u.getLast? = some '.' := by
        rw [← hu, List.getLast?_append] at hl
        cases hu' : u.getLast? with
        | none => exact absurd (List.getLast?_eq_none_iff.mp hu') hune
        | some y => rw [hu'] at hl; simpa using hl
      have hulen : u.length ≤ f := by
        have := congrArg List.length hu
        simp at this
        have hp1 : 1 ≤ pat.length := by
          cases hp : pat with
          | nil => exact absurd hp hpne
          | cons a as => simp
        simp at hf
        omega
      simp only [replaceGo, if_pos hm, hrest]
      rw [List.getLast?_append, replaceGo_dot hpne hd f u hulen hul]
      rfl
    · simp only [replaceGo, if_neg hm]
      cases cs with
      | nil =>
        have : replaceGo pat rep f [] = [] := by cases f <;> rfl
        rw [this]
        simpa using hl
      | cons d ds =>
        rw [List.getLast?_cons_cons] at hl
        have hx := @replaceGo_dot pat rep hpne hd f (d :: ds) (by simp at hf ⊢; omega) hl
        cases he : replaceGo pat rep f (d :: ds) with
        | nil => rw [he] at hx; simp at hx
        | cons x xs => rw [he] at hx; rw [List.getLast?_cons_cons]; exact hx

theorem pyReplace_dot {s pat rep : Str} (hpne : pat ≠ []) (hd : '.' ∉ pat)
    (hl : s.getLast? = some '.') : (pyReplace s pat rep).getLast? = some '.' :=
  replaceGo_dot hpne hd s.length s (Nat.le_refl _) hl

theorem pyReplace_keeps_lead {lead pat rep : Str} (hrep : rep <+: pat)
    (hlowpat : pat.map Char.toLower = pat)
    (hcomp : ∀ i < lead.length, i + rep.length < lead.length →
      ¬ pat <+: lead.drop i ∧ ¬ lead.drop i <+: pat)
    {s : Str} (h : lead <+: lower s) : lead <+: lower (pyReplace s pat rep) := by
  obtain ⟨t, ht⟩ := h
  have hlen : lead.length ≤ s.length := by
    have := congrArg List.length ht
    simp [lower] at this
    omega
  have htake : (pyReplace s pat rep).take lead.length = s.take lead.length := by
    apply pyReplace_take _ hrep
    intro i hi hcon
    have hi' : i ≤ lead.length := by omega
    have h2 : pat <+: lower (List.drop i s) := by
      have h3 := List.IsPrefix.map Char.toLower hcon
      rwa [hlowpat] at h3
    have h4 : lower (List.drop i s) = lead.drop i ++ t := by
      have h5 : lower (List.drop i s) = (lower s).drop i := by
        simp [lower, List.map_drop]
      rw [h5, ← ht, List.drop_append_of_le_length hi']
    rw [h4] at h2
    exact not_pre_append (hcomp i (by omega) hi).1 (hcomp i (by omega) hi).2 t h2
  apply pre_of_take
  have h6 : (lower (pyReplace s pat rep)).take lead.length
      = lower ((pyReplace s pat rep).take lead.length) := by simp [lower, List.map_take]
  rw [h6, htake]
  have h7 : lower (s.take lead.length) = (lower s).take lead.length := by
    simp [lower, List.map_take]
  rw [h7, ← ht]
  exact List.take_left lead t

theorem pyReplace_pre {p rest pat rep : Str} (hrep : rep <+: pat)
    (hcomp : ∀ i < p.length, i + rep.length < p.length →
      ¬ pat <+: p.drop i ∧ ¬ p.drop i <+: pat) :
    p <+: pyReplace (p ++ rest) pat rep := by
  apply pre_of_take
  have htake : (pyReplace (p ++ rest) pat rep).take p.length = (p ++ rest).take p.length := by
    apply pyReplace_take _ hrep
    intro i hi hcon
    rw [List.drop_append_of_le_length (by omega : i ≤ p.length)] at hcon
    exact not_pre_append (hcomp i (by omega) hi).1 (hcomp i (by omega) hi).2 rest hcon
  rw [htake]
  exact List.take_left p rest

theorem pre_getD {p L : Str} (h : p <+: L) (i : Nat) (hip : i < p.length) (d : Char) :
    L.getD i d = p.getD i d := by
  obtain ⟨t, rfl⟩ := h
  rw [List.getD_eq_getElem?_getD, List.getD_eq_getElem?_getD, List.getElem?_append_left hip]

theorem not_pre_of_conflict {p q L : Str} (hq : q <+: L) (i : Nat) (hip : i < p.length)
    (hiq : i < q.length) (d : Char) (hne : p.getD i d ≠ q.getD i d) : ¬ p <+: L :=
  fun hp => hne ((pre_getD hp i hip d).symm.trans (pre_getD hq i hiq d))

theorem pyStrip_pre {p s : Str} (h : p <+: s) (hne : p ≠ [])
    (hh : ¬ (p.headD ' ').isWhitespace) (hl : ¬ (p.getLastD ' ').isWhitespace) :
    p <+: pyStrip s := by
  obtain ⟨t, rfl⟩ := h
  unfold pyStrip
  obtain ⟨c, cs, hp⟩ : ∃ c cs, p = c :: cs := by
    cases p with
    | nil => exact absurd rfl hne
    | cons a as => exact ⟨a, as, rfl⟩
  have hh' : ¬ c.isWhitespace := by rw [hp] at hh; simpa using hh
  have hfront : (p ++ t).dropWhile Char.isWhitespace = p ++ t := by
    rw [hp, List.cons_append, List.dropWhile_cons_of_neg (by simpa using hh')]
  rw [hfront]
  obtain ⟨q, x, hq⟩ : ∃ q x, p = q ++ [x] := by
    rcases List.eq_nil_or_concat p with h0 | ⟨q, x, h0⟩
    · exact absurd h0 hne
    · exact ⟨q, x, by simpa using h0⟩
  have hx : ¬ x.isWhitespace := by
    rw [hq] at hl
    simpa using hl
  have hsplit : (q ++ [x] ++ t).reverse = t.reverse ++ (x :: q.reverse) := by
    simp
  rw [hq, hsplit, List.dropWhile_append]
  by_cases ht : (t.reverse.dropWhile Char.isWhitespace).isEmpty
  · rw [if_pos ht, List.dropWhile_cons_of_neg (by simpa using hx)]
    refine ⟨[], ?_⟩
    simp
  · rw [if_neg ht]
    refine ⟨(t.reverse.dropWhile Char.isWhitespace).reverse, ?_⟩
    rw [List.reverse_append]
    simp

theorem appendContext_pre (d : Doc) {p init : Str} (h : p <+: init) :
    p <+: appendContext d init := by
  unfold appendContext
  generalize d.chunks = L
  induction L generalizing init with
  | nil => simpa using h
  | cons c cl ih =>
    simp only [List.foldl_cons]
    apply ih
    by_cases hc : ((rootTokOf d c).dep_ == str "pobj" && !containsSub init c.text
        && !endsWithDot init) = true
    · rw [if_pos hc]
      exact h.trans ⟨_, by rw [List.append_assoc]⟩
    · rw [if_neg hc]
      exact h

/- ### Helper lemmas: stable sort commutes with filtering -/

theorem mergeSort_filter_swap {α : Type} (le : α → α → Bool)
    (htr : ∀ a b c : α, le a b → le b c → le a c)
    (hto : ∀ a b : α, le a b || le b a) (p : α → Bool) :
    ∀ l : List α, (l.mergeSort le).filter p = (l.filter p).mergeSort le
  | [] => by simp
  | a :: l => by
    obtain ⟨l₁, l₂, h₁, h₂, h₃⟩ := List.mergeSort_cons htr hto a l
    by_cases hpa : p a
    · obtain ⟨m₁, m₂, g₁, g₂, g₃⟩ := List.mergeSort_cons htr hto a (l.filter p)
      have key : l₁.filter p ++ l₂.filter p = m₁ ++ m₂ := by
        rw [← List.filter_append, ← h₂, mergeSort_filter_swap le htr hto p l, g₂]
      have sorted₁ : (l₁ ++ a :: l₂).Pairwise (fun x y => le x y) := by
        rw [← h₁]; exact List.sorted_mergeSort htr hto (a :: l)
      have sortedM : (m₁ ++ a :: m₂).Pairwise (fun x y => le x y) := by
        rw [← g₁]; exact List.sorted_mergeSort htr hto (a :: l.filter p)
      have ha₂ : ∀ b ∈ l₂.filter p, le a b := by
        intro b hb
        have hb' : b ∈ l₂ := (List.mem_filter.mp hb).1
        have := (List.pairwise_append.mp sorted₁).2.1
        exact List.rel_of_pairwise_cons this hb'
      have ham : ∀ b ∈ m₂, le a b := by
        intro b hb
        have := (List.pairwise_append.mp sortedM).2.1
        exact List.rel_of_pairwise_cons this hb
      have hl₁ : ∀ b ∈ l₁.filter p, ¬ le a b := by
        intro b hb hle
        have := h₃ b (List.mem_filter.mp hb).1
        rw [hle] at this
        simp at this
      have hm₁ : ∀ b ∈ m₁, ¬ le a b := by
        intro b hb hle
        have := g₃ b hb
        rw [hle] at this
        simp at this
      have hsame : l₁.filter p = m₁ ∧ l₂.filter p = m₂ := by
        rcases List.append_eq_append_iff.mp key with ⟨u, hu₁, hu₂⟩ | ⟨u, hu₁, hu₂⟩
        · cases u with
          | nil => simp at hu₁ hu₂; exact ⟨hu₁.symm, hu₂⟩
          | cons v vs =>
            exfalso
            have hv₁ : v ∈ m₁ := by rw [hu₁]; exact List.mem_append_right _ (List.mem_cons_self _ _)
            have hv₂ : v ∈ l₂.filter p := by rw [hu₂]; exact List.mem_append_left _ (List.mem_cons_self _ _)
            exact hm₁ v hv₁ (ha₂ v hv₂)
        · cases u with
          | nil => simp at hu₁ hu₂; exact ⟨hu₁, hu₂.symm⟩
          | cons v vs =>
            exfalso
            have hv₁ : v ∈ l₁.filter p := by
              rw [hu₁]; exact List.mem_append_right _ (List.mem_cons_self _ _)
            have hv₂ : v ∈ m₂ := by rw [hu₂]; exact List.mem_append_left _ (List.mem_cons_self _ _)
            exact hl₁ v hv₁ (ham v hv₂)
      calc ((a :: l).mergeSort le).filter p
          = (l₁ ++ a :: l₂).filter p := by rw [h₁]
        _ = l₁.filter p ++ a :: l₂.filter p := by
            rw [List.filter_append, List.filter_cons_of_pos hpa]
        _ = m₁ ++ a :: m₂ := by rw [hsame.1, hsame.2]
        _ = ((a :: l).filter p).mergeSort le := by
            rw [List.filter_cons_of_pos hpa, g₁]
    · calc ((a :: l).mergeSort le).filter p
          = (l₁ ++ a :: l₂).filter p := by rw [h₁]
        _ = l₁.filter p ++ l₂.filter p := by
            rw [List.filter_append, List.filter_cons_of_neg (by simpa using hpa)]
        _ = (l.mergeSort le).filter p := by rw [← List.filter_append, ← h₂]
        _ = (l.filter p).mergeSort le := mergeSort_filter_swap le htr hto p l
        _ = ((a :: l).filter p).mergeSort le := by
            rw [List.filter_cons_of_neg (by simpa using hpa)]

theorem scoreDesc_trans : ∀ a b c : Feature, scoreDesc a b → scoreDesc b c → scoreDesc a c := by
  intro a b c h₁ h₂
  simp only [scoreDesc, decide_eq_true_eq] at h₁ h₂ ⊢
  omega

theorem scoreDesc_total : ∀ a b : Feature, scoreDesc a b || scoreDesc b a := by
  intro a b
  simp only [scoreDesc, Bool.or_eq_true, decide_eq_true_eq]
  omega

/- ### Helper lemmas: deduplication -/

theorem dedupLoop_key_fresh :
    ∀ (l : List Str) (seen : List Str) (r : Str), r ∈ dedupLoop seen l →
      ¬ seen.contains (simpleKey r) = true
  | [], _, _, h => by simp [dedupLoop] at h
  | x :: xs, seen, r, h => by
    rw [dedupLoop] at h
    by_cases hc : (!seen.contains (simpleKey x) && 4 < (words x).length : Bool) = true
    · rw [if_pos hc] at h
      rcases List.mem_cons.mp h with rfl | h'
      · simp only [Bool.and_eq_true, Bool.not_eq_true'] at hc
        intro hcon
        rw [hc.1] at hcon
        exact Bool.false_ne_true hcon
      · intro hcon
        refine dedupLoop_key_fresh xs (simpleKey x :: seen) r h' ?_
        simp only [List.contains_cons, Bool.or_eq_true]
        exact Or.inr hcon
    · rw [if_neg hc] at h
      exact dedupLoop_key_fresh xs seen r h

theorem dedupLoop_pairwise :
    ∀ (l : List Str) (seen : List Str),
      (dedupLoop seen l).Pairwise (fun a b => simpleKey a ≠ simpleKey b)
  | [], _ => by simp [dedupLoop]
  | x :: xs, seen => by
    rw [dedupLoop]
    by_cases hc : (!seen.contains (simpleKey x) && 4 < (words x).length : Bool) = true
    · rw [if_pos hc]
      refine List.Pairwise.cons ?_ (dedupLoop_pairwise xs (simpleKey x :: seen))
      intro b hb heq
      have := dedupLoop_key_fresh xs (simpleKey x :: seen) b hb
      exact this (by simp [List.contains_cons, heq])
    · rw [if_neg hc]
      exact dedupLoop_pairwise xs seen

/- ### Helper lemmas: whitespace-only inputs -/

theorem collapseWs_ws : ∀ {s : Str}, (∀ c ∈ s, c.isWhitespace) →
    ∀ c ∈ collapseWs s, c.isWhitespace
  | [], _ => by simp [collapseWs]
  | [c], h => by
    have hc : c.isWhitespace := h c (by simp)
    simp [collapseWs, hc]
  | c :: d :: cs, h => by
    have hc : c.isWhitespace := h c (by simp)
    have hrest : ∀ x ∈ d :: cs, x.isWhitespace := fun x hx => h x (List.mem_cons_of_mem _ hx)
    have ih := collapseWs_ws hrest
    simp only [collapseWs, if_pos hc]
    by_cases hd : d.isWhitespace
    · rw [if_pos hd]; exact ih
    · rw [if_neg hd]
      intro x hx
      rcases List.mem_cons.mp hx with rfl | hx'
      · simp
      · exact ih x hx'

theorem words_nil_of_ws : ∀ {s : Str}, (∀ c ∈ s, c.isWhitespace) → words s = []
  | [], _ => rfl
  | [c], h => by
    have hc : c.isWhitespace := h c (by simp)
    simp [words, hc]
  | c :: d :: cs, h => by
    have hc : c.isWhitespace := h c (by simp)
    have hrest : ∀ x ∈ d :: cs, x.isWhitespace := fun x hx => h x (List.mem_cons_of_mem _ hx)
    simp only [words, if_pos hc]
    exact words_nil_of_ws hrest

/- ### Helper lemmas: classification -/

theorem stakeholder_three (r : Str) :
    stakeholderOf r = str "Customer" ∨ stakeholderOf r = str "Administrator" ∨
      stakeholderOf r = str "System" := by
  unfold stakeholderOf
  split
  · exact Or.inl rfl
  · split
    · exact Or.inr (Or.inl rfl)
    · exact Or.inr (Or.inr rfl)


theorem perm_three_groups :
    ∀ l : List Classified,
      (∀ x ∈ l, x.stakeholder = str "Customer" ∨ x.stakeholder = str "Administrator" ∨
        x.stakeholder = str "System") →
      List.Perm
        ((l.filter (fun r => r.stakeholder == str "Customer")) ++
         (l.filter (fun r => r.stakeholder == str "Administrator")) ++
         (l.filter (fun r => r.stakeholder == str "System"))) l
  | [], _ => by simp
  | x :: l, h => by
    have ih := perm_three_groups l (fun y hy => h y (List.mem_cons_of_mem _ hy))
    rcases h x (List.mem_cons_self _ _) with hx | hx | hx
    · have e1 : (x.stakeholder == str "Customer") = true := by simp [hx]
      have e2 : (x.stakeholder == str "Administrator") = false := by
        rw [hx]; decide
      have e3 : (x.stakeholder == str "System") = false := by rw [hx]; decide
      simp only [List.filter_cons, e1, e2, e3, Bool.false_eq_true, if_false, if_true,
        List.cons_append]
      exact ih.cons x
    · have e1 : (x.stakeholder == str "Customer") = false := by rw [hx]; decide
      have e2 : (x.stakeholder == str "Administrator") = true := by simp [hx]
      have e3 : (x.stakeholder == str "System") = false := by rw [hx]; decide
      simp only [List.filter_cons, e1, e2, e3, Bool.false_eq_true, if_false, if_true]
      have hassoc :
          (l.filter (fun r => r.stakeholder == str "Customer") ++
            (x :: l.filter (fun r => r.stakeholder == str "Administrator"))) ++
            l.filter (fun r => r.stakeholder == str "System") =
          l.filter (fun r => r.stakeholder == str "Customer") ++
            x :: (l.filter (fun r => r.stakeholder == str "Administrator") ++
              l.filter (fun r => r.stakeholder == str "System")) := by
        simp
      rw [hassoc]
      refine List.Perm.trans List.perm_middle ?_
      refine List.Perm.cons x ?_
      rw [← List.append_assoc]
      exact ih
    · have e1 : (x.stakeholder == str "Customer") = false := by rw [hx]; decide
      have e2 : (x.stakeholder == str "Administrator") = false := by rw [hx]; decide
      have e3 : (x.stakeholder == str "System") = true := by simp [hx]
      simp only [List.filter_cons, e1, e2, e3, Bool.false_eq_true, if_false, if_true]
      refine List.Perm.trans List.perm_middle ?_
      exact List.Perm.cons x ih

/- ### Helper lemmas: formulator -/

theorem endsWithDot_iff {s : Str} : endsWithDot s = true ↔ s.getLast? = some '.' := by
  unfold endsWithDot
  simp

theorem low_append (a b : Str) : lower (a ++ b) = lower a ++ lower b :=
  List.map_append _ _ _

theorem any_no_empty_guard (l : List Str) (kws : List Str)
    (hk : kws.contains ([] : Str) = false) :
    (l.any fun a => !a.isEmpty && kws.contains (lower a)) =
      (l.any fun a => kws.contains (lower a)) := by
  induction l with
  | nil => rfl
  | cons a as ih =>
    simp only [List.any_cons, ih]
    cases a with
    | nil =>
      simp only [lower, List.map_nil, List.isEmpty_nil, Bool.not_true, Bool.false_and,
        Bool.false_or, hk]
    | cons c cs => simp

theorem primary_actor_cases (f : Feature) :
    primary_actor f = str "The customer" ∨ primary_actor f = str "The administrator" ∨
      primary_actor f = str "The system" := by
  unfold primary_actor
  split
  · exact Or.inl rfl
  · split
    · exact Or.inr (Or.inl rfl)
    · exact Or.inr (Or.inr rfl)

theorem primary_actor_claim (f : Feature) :
    primary_actor f =
      (if (actorsOf f).any (fun a => customer_actor_words.contains (lower a)) then
        str "The customer"
      else if (actorsOf f).any (fun a => admin_actor_words.contains (lower a)) then
        str "The administrator"
      else str "The system") := by
  unfold primary_actor
  rw [any_no_empty_guard _ _ (by decide), any_no_empty_guard _ _ (by decide)]

theorem draftOf_decomp (f : Feature) :
    ∃ rest, draftOf f = primary_actor f ++ (str " shall " ++ rest) := by
  unfold draftOf
  split
  · exact ⟨actionOf f ++ (str " " ++ (objectsOf f).headD []), by simp [List.append_assoc]⟩
  · exact ⟨actionOf f ++ (str " " ++ lower f.sentence), by simp [List.append_assoc]⟩

theorem primary_pre_formulate (f : Feature) : primary_actor f <+: formulate_one f := by
  obtain ⟨rest, hd⟩ := draftOf_decomp f
  unfold formulate_one
  apply appendContext_pre
  have hcomp : ∀ i < (primary_actor f).length, i + (str " ").length < (primary_actor f).length →
      ¬ (str "  ") <+: (primary_actor f).drop i ∧ ¬ (primary_actor f).drop i <+: str "  " := by
    rcases primary_actor_cases f with h | h | h <;> rw [h] <;> decide
  have hpre : primary_actor f <+: pyReplace (draftOf f) (str "  ") (str " ") := by
    rw [hd]
    exact pyReplace_pre (by decide) hcomp
  apply pyStrip_pre hpre
  · rcases primary_actor_cases f with h | h | h <;> rw [h] <;> decide
  · rcases primary_actor_cases f with h | h | h <;> rw [h] <;> decide
  · rcases primary_actor_cases f with h | h | h <;> rw [h] <;> decide

theorem formulate_one_ne_nil (f : Feature) : formulate_one f ≠ [] := by
  intro h0
  have h := primary_pre_formulate f
  rw [h0] at h
  obtain ⟨t, ht⟩ := h
  have hnil : primary_actor f = [] := (List.append_eq_nil.mp ht).1
  rcases primary_actor_cases f with hc | hc | hc <;> rw [hc] at hnil <;> exact absurd hnil (by decide)

/- ### Helper lemmas: refiner normalization invariants -/

theorem normalizeReq_invariant (r : Str) :
    (str "the system shall" <+: lower (normalizeReq r) ∨
     str "the customer should" <+: lower (normalizeReq r) ∨
     str "the administrator should" <+: lower (normalizeReq r)) ∧
    endsWithDot (normalizeReq r) = true := by
  have hlead : str "the system shall" <+: lower (ensureLead r) ∨
      str "the customer should" <+: lower (ensureLead r) ∨
      str "the administrator should" <+: lower (ensureLead r) := by
    unfold ensureLead
    by_cases ha : startsApproved r = true
    · rw [if_pos ha]
      simp only [startsApproved, approved_leads, List.any_cons, List.any_nil,
        Bool.or_eq_true, Bool.or_false] at ha
      rcases ha with h | h | h
      · exact Or.inl (isPre_iff.mp h)
      · exact Or.inr (Or.inl (isPre_iff.mp h))
      · exact Or.inr (Or.inr (isPre_iff.mp h))
    · rw [if_neg ha]
      refine Or.inl ?_
      rw [low_append]
      have he : lower (str "The system shall ") = str "the system shall" ++ [' '] := by decide
      rw [he, List.append_assoc]
      exact ⟨[' '] ++ lower r, rfl⟩
  have hdotlead : (str "the system shall" <+: lower (ensureDot (ensureLead r)) ∨
      str "the customer should" <+: lower (ensureDot (ensureLead r)) ∨
      str "the administrator should" <+: lower (ensureDot (ensureLead r))) := by
    unfold ensureDot
    by_cases hdd : endsWithDot (ensureLead r) = true
    · rw [if_pos hdd]; exact hlead
    · rw [if_neg hdd]
      rw [low_append]
      rcases hlead with h | h | h
      · exact Or.inl (h.trans ⟨_, rfl⟩)
      · exact Or.inr (Or.inl (h.trans ⟨_, rfl⟩))
      · exact Or.inr (Or.inr (h.trans ⟨_, rfl⟩))
  have hdot : (ensureDot (ensureLead r)).getLast? = some '.' := by
    unfold ensureDot
    by_cases hdd : endsWithDot (ensureLead r) = true
    · rw [if_pos hdd]; exact endsWithDot_iff.mp hdd
    · rw [if_neg hdd]
      rw [List.getLast?_append]
      rfl
  constructor
  · unfold normalizeReq applyFixups
    rcases hdotlead with h | h | h
    · refine Or.inl (pyReplace_keeps_lead (by decide) (by decide) (by decide)
        (pyReplace_keeps_lead (by decide) (by decide) (by decide)
          (pyReplace_keeps_lead (by decide) (by decide) (by decide) h)))
    · refine Or.inr (Or.inl (pyReplace_keeps_lead (by decide) (by decide) (by decide)
        (pyReplace_keeps_lead (by decide) (by decide) (by decide)
          (pyReplace_keeps_lead (by decide) (by decide) (by decide) h))))
    · refine Or.inr (Or.inr (pyReplace_keeps_lead (by decide) (by decide) (by decide)
        (pyReplace_keeps_lead (by decide) (by decide) (by decide)
          (pyReplace_keeps_lead (by decide) (by decide) (by decide) h))))
  · rw [endsWithDot_iff]
    unfold normalizeReq applyFixups
    exact pyReplace_dot (by decide) (by decide)
      (pyReplace_dot (by decide) (by decide) (pyReplace_dot (by decide) (by decide) hdot))

/- ### Claim theorems -/

/-- C1: the Requirement Scorer gives each record the score
2·|action_verbs| + 3·|modals| + 2·|svo_patterns|, plus 3 for a requirement keyword,
2 for a system-component keyword and 2 for a role keyword in the lowercased sentence;
the output keeps exactly the records with score > 3, sorted descending by score with
ties kept in original input order (stable sort of the kept records). -/
theorem c1_scorer_spec (l : List Feature) :
    (∀ f : Feature, req_score f =
      2 * f.action_verbs.length + 3 * f.modals.length + 2 * f.svo_patterns.length +
      (if requirement_keywords.any (fun k => containsSub (lower f.sentence) k) then 3 else 0) +
      (if system_components.any (fun k => containsSub (lower f.sentence) k) then 2 else 0) +
      (if user_roles.any (fun k => containsSub (lower f.sentence) k) then 2 else 0)) ∧
    identify_potential_requirements l =
      (l.filter (fun f => 3 < req_score f)).mergeSort scoreDesc ∧
    (identify_potential_requirements l).Pairwise (fun a b => req_score b ≤ req_score a) := by
  refine ⟨?_, ?_, ?_⟩
  · intro f
    unfold req_score
    have h1 : ∀ (α : Type) (xs : List α) (n : Nat),
        (if ¬ xs.isEmpty then xs.length * n else 0) = n * xs.length := by
      intro α xs n
      cases xs <;> simp [Nat.mul_comm]
    rw [h1, h1, h1]
  · unfold identify_potential_requirements
    exact mergeSort_filter_swap scoreDesc scoreDesc_trans scoreDesc_total _ l
  · unfold identify_potential_requirements
    have hs := List.sorted_mergeSort scoreDesc_trans scoreDesc_total l
    exact List.Pairwise.imp (fun h => by simpa [scoreDesc, decide_eq_true_eq] using h)
      (List.Pairwise.sublist (List.filter_sublist _) hs)

/-- C4 (counterexample): the Refiner output for
["The system shall a b c d", "shall a b c d"] contains the same refined text twice
(normalization maps both drafts to "The system shall a b c d."), so the dedup is not
effective on the final refined texts. -/
theorem c4_dedup_cx :
    refine_requirements [str "The system shall a b c d", str "shall a b c d"] =
      [str "The system shall a b c d.", str "The system shall a b c d."] ∧
    ¬ (refine_requirements [str "The system shall a b c d", str "shall a b c d"]).Pairwise
        (fun a b => simpleKey a ≠ simpleKey b) := by
  have he : refine_requirements [str "The system shall a b c d", str "shall a b c d"] =
      [str "The system shall a b c d.", str "The system shall a b c d."] := by decide
  refine ⟨he, ?_⟩
  intro hp
  rw [he] at hp
  exact List.rel_of_pairwise_cons hp (List.mem_cons_self _ _) rfl

/-- C4 (amended): the deduplication acts on the drafts before normalization: no two
elements of the deduplicated draft list (the first loop of `refine_requirements`)
have equal comparison keys; after the subsequent normalization, equal keys may recur. -/
theorem c4_dedup_amended (l : List Str) :
    (dedupLoop [] l).Pairwise (fun a b => simpleKey a ≠ simpleKey b) :=
  dedupLoop_pairwise l []

/-- C8: the Formulator always returns a non-empty string beginning with the primary
actor, which is "The customer" if some nsubj noun-chunk actor lowercases to
customer/client/user, else "The administrator" for administrator/admin/owner, else
"The system" (customer priority). -/
theorem c8_formulator_actor (f : Feature) :
    formulate_one f ≠ [] ∧
    primary_actor f <+: formulate_one f ∧
    primary_actor f =
      (if (actorsOf f).any (fun a => customer_actor_words.contains (lower a)) then
        str "The customer"
      else if (actorsOf f).any (fun a => admin_actor_words.contains (lower a)) then
        str "The administrator"
      else str "The system") ∧
    (primary_actor f = str "The customer" ∨ primary_actor f = str "The administrator" ∨
      primary_actor f = str "The system") :=
  ⟨formulate_one_ne_nil f, primary_pre_formulate f, primary_actor_claim f,
    primary_actor_cases f⟩

/-- C10: classification preserves the requirement texts: output has the same length
as the input, and the i-th "requirement" field equals the i-th input string. -/
theorem c10_classifier_frame (l : List Str) :
    (classify_requirements l).map Classified.requirement = l ∧
    (classify_requirements l).length = l.length := by
  constructor
  · rw [classify_requirements, List.map_map]
    have hc : Classified.requirement ∘ classify_one = id := rfl
    rw [hc, List.map_id]
  · simp [classify_requirements]

/-- C2 (counterexample): a draft beginning "The customer shall" is not treated as
compliant: the Refiner prefixes it with "The system shall ", instead of leaving the
lead phrase unchanged and only appending a period. -/
theorem c2_refiner_lead_cx :
    refine_requirements [str "The customer shall book a washing machine"] =
      [str "The system shall The customer shall book a washing machine."] ∧
    refine_requirements [str "The customer shall book a washing machine"] ≠
      [str "The customer shall book a washing machine."] := by
  constructor
  · decide
  · decide

/-- C2 (amended): a draft whose text begins with "The customer shall" or
"The administrator shall" matches none of the approved lead phrases
("the system shall" / "the customer should" / "the administrator should"), so
normalization prefixes it with "The system shall " before appending the trailing
period (if missing) and applying the fix-ups. -/
theorem c2_refiner_lead_amended (d : Str)
    (h : str "The customer shall" <+: d ∨ str "The administrator shall" <+: d) :
    normalizeReq d = applyFixups (ensureDot (str "The system shall " ++ d)) := by
  have hlow : str "the customer shall" <+: lower d ∨
      str "the administrator shall" <+: lower d := by
    rcases h with h | h
    · left
      have h2 := List.IsPrefix.map Char.toLower h
      rwa [show (str "The customer shall").map Char.toLower = str "the customer shall"
        from by decide] at h2
    · right
      have h2 := List.IsPrefix.map Char.toLower h
      rwa [show (str "The administrator shall").map Char.toLower = str "the administrator shall"
        from by decide] at h2
  have h1 : List.isPrefixOf (str "the system shall") (lower d) = false := by
    rw [Bool.eq_false_iff]
    intro hx
    rcases hlow with hq | hq
    · exact not_pre_of_conflict hq 4 (by decide) (by decide) ' ' (by decide) (isPre_iff.mp hx)
    · exact not_pre_of_conflict hq 4 (by decide) (by decide) ' ' (by decide) (isPre_iff.mp hx)
  have h2 : List.isPrefixOf (str "the customer should") (lower d) = false := by
    rw [Bool.eq_false_iff]
    intro hx
    rcases hlow with hq | hq
    · exact not_pre_of_conflict hq 15 (by decide) (by decide) ' ' (by decide) (isPre_iff.mp hx)
    · exact not_pre_of_conflict hq 4 (by decide) (by decide) ' ' (by decide) (isPre_iff.mp hx)
  have h3 : List.isPrefixOf (str "the administrator should") (lower d) = false := by
    rw [Bool.eq_false_iff]
    intro hx
    rcases hlow with hq | hq
    · exact not_pre_of_conflict hq 4 (by decide) (by decide) ' ' (by decide) (isPre_iff.mp hx)
    · exact not_pre_of_conflict hq 20 (by decide) (by decide) ' ' (by decide) (isPre_iff.mp hx)
  have hna : startsApproved d = false := by
    simp [startsApproved, approved_leads, h1, h2, h3]
  have hlead : ensureLead d = str "The system shall " ++ d := by
    unfold ensureLead
    rw [hna]
    simp
  unfold normalizeReq
  rw [hlead]

/-- Witness for C2 (amended) at the draft "The customer shall book a washing machine". -/
theorem c2_refiner_lead_amended_witness :
    (str "The customer shall" <+: str "The customer shall book a washing machine" ∨
      str "The administrator shall" <+: str "The customer shall book a washing machine") ∧
    normalizeReq (str "The customer shall book a washing machine") =
      applyFixups (ensureDot
        (str "The system shall " ++ str "The customer shall book a washing machine")) :=
  ⟨Or.inl (by decide),
    c2_refiner_lead_amended _ (Or.inl (by decide))⟩

/-- C3 (counterexample): a scored candidate with a non-empty actor list and a
non-empty object list but no verbs at all (so `actions` is empty) falls back to the
sentence template instead of producing the short template
"{primary_actor} shall {action} {objects[0]}". -/
theorem c3_formulator_template_cx :
    actorsOf ⟨str "Customers use it", [], [], [], [], [], [],
        ⟨[⟨str "Customers", str "customer", str "NOUN", str "nsubj", 1⟩,
          ⟨str "it", str "it", str "NOUN", str "dobj", 1⟩],
         [⟨str "Customers", 0⟩, ⟨str "it", 1⟩], []⟩⟩ ≠ [] ∧
    objectsOf ⟨str "Customers use it", [], [], [], [], [], [],
        ⟨[⟨str "Customers", str "customer", str "NOUN", str "nsubj", 1⟩,
          ⟨str "it", str "it", str "NOUN", str "dobj", 1⟩],
         [⟨str "Customers", 0⟩, ⟨str "it", 1⟩], []⟩⟩ ≠ [] ∧
    formulate_one ⟨str "Customers use it", [], [], [], [], [], [],
        ⟨[⟨str "Customers", str "customer", str "NOUN", str "nsubj", 1⟩,
          ⟨str "it", str "it", str "NOUN", str "dobj", 1⟩],
         [⟨str "Customers", 0⟩, ⟨str "it", 1⟩], []⟩⟩ =
      str "The system shall support customers use it" ∧
    formulate_one ⟨str "Customers use it", [], [], [], [], [], [],
        ⟨[⟨str "Customers", str "customer", str "NOUN", str "nsubj", 1⟩,
          ⟨str "it", str "it", str "NOUN", str "dobj", 1⟩],
         [⟨str "Customers", 0⟩, ⟨str "it", 1⟩], []⟩⟩ ≠
      str "The system shall support it" := by
  refine ⟨by decide, by decide, by decide, by decide⟩

/-- C3 (amended): the short template is chosen only when the actor list, the object
list, and the `actions` list (action verbs, else verbs) are all non-empty; the
"support" literal is the action only when both verb lists are empty, in which case
the candidate falls back to the sentence template even with actors and objects
present.  Under the three non-emptiness conditions the chosen draft is exactly
"{primary_actor} shall {action} {objects[0]}". -/
theorem c3_formulator_template_amended (f : Feature)
    (h1 : actorsOf f ≠ []) (h2 : objectsOf f ≠ []) (h3 : actionsOf f ≠ []) :
    draftOf f =
      primary_actor f ++ str " shall " ++ actionOf f ++ str " " ++ (objectsOf f).headD [] ∧
    actionOf f =
      (if ¬ f.action_verbs.isEmpty then f.action_verbs.headD (str "support")
       else if ¬ f.verbs.isEmpty then f.verbs.headD (str "support")
       else str "support") := by
  constructor
  · unfold draftOf
    rw [if_pos]
    simp only [Bool.and_eq_true, Bool.not_eq_true', List.isEmpty_eq_false]
    exact ⟨⟨h1, h3⟩, h2⟩
  · unfold actionOf actionsOf
    by_cases hav : f.action_verbs.isEmpty
    · rw [if_pos hav, if_neg (by simpa using hav)]
      have hv : ¬ f.verbs.isEmpty := by
        intro hc
        apply h3
        unfold actionsOf
        rw [if_pos hav]
        exact List.isEmpty_iff.mp hc
      rw [if_pos hv]
    · rw [if_neg hav, if_pos hav]

/-- Witness for C3 (amended) on a candidate with action verb "book", an nsubj chunk
"The customer" and a dobj chunk "a machine". -/
theorem c3_formulator_template_amended_witness :
    (actorsOf ⟨str "The customer books a machine", [str "book"], [str "book"], [], [], [], [],
        ⟨[⟨str "customer", str "customer", str "NOUN", str "nsubj", 1⟩,
          ⟨str "machine", str "machine", str "NOUN", str "dobj", 1⟩],
         [⟨str "The customer", 0⟩, ⟨str "a machine", 1⟩], []⟩⟩ ≠ []) ∧
    (objectsOf ⟨str "The customer books a machine", [str "book"], [str "book"], [], [], [], [],
        ⟨[⟨str "customer", str "customer", str "NOUN", str "nsubj", 1⟩,
          ⟨str "machine", str "machine", str "NOUN", str "dobj", 1⟩],
         [⟨str "The customer", 0⟩, ⟨str "a machine", 1⟩], []⟩⟩ ≠ []) ∧
    (actionsOf ⟨str "The customer books a machine", [str "book"], [str "book"], [], [], [], [],
        ⟨[⟨str "customer", str "customer", str "NOUN", str "nsubj", 1⟩,
          ⟨str "machine", str "machine", str "NOUN", str "dobj", 1⟩],
         [⟨str "The customer", 0⟩, ⟨str "a machine", 1⟩], []⟩⟩ ≠ []) ∧
    (draftOf ⟨str "The customer books a machine", [str "book"], [str "book"], [], [], [], [],
        ⟨[⟨str "customer", str "customer", str "NOUN", str "nsubj", 1⟩,
          ⟨str "machine", str "machine", str "NOUN", str "dobj", 1⟩],
         [⟨str "The customer", 0⟩, ⟨str "a machine", 1⟩], []⟩⟩ =
      primary_actor ⟨str "The customer books a machine", [str "book"], [str "book"], [], [], [],
        [], ⟨[⟨str "customer", str "customer", str "NOUN", str "nsubj", 1⟩,
          ⟨str "machine", str "machine", str "NOUN", str "dobj", 1⟩],
         [⟨str "The customer", 0⟩, ⟨str "a machine", 1⟩], []⟩⟩ ++ str " shall " ++
      actionOf ⟨str "The customer books a machine", [str "book"], [str "book"], [], [], [], [],
        ⟨[⟨str "customer", str "customer", str "NOUN", str "nsubj", 1⟩,
          ⟨str "machine", str "machine", str "NOUN", str "dobj", 1⟩],
         [⟨str "The customer", 0⟩, ⟨str "a machine", 1⟩], []⟩⟩ ++ str " " ++
      (objectsOf ⟨str "The customer books a machine", [str "book"], [str "book"], [], [], [], [],
        ⟨[⟨str "customer", str "customer", str "NOUN", str "nsubj", 1⟩,
          ⟨str "machine", str "machine", str "NOUN", str "dobj", 1⟩],
         [⟨str "The customer", 0⟩, ⟨str "a machine", 1⟩], []⟩⟩).headD []) :=
  ⟨by decide, by decide, by decide,
    (c3_formulator_template_amended _ (by decide) (by decide) (by decide)).1⟩

/-- C5 (counterexample): the eligible 5-word draft "The system shall shall shall" is
refined to "The system shall shall." which has only 4 whitespace-delimited words:
the " shall shall " fix-up can push a refined requirement below 5 words. -/
theorem c5_refined_invariant_cx :
    refine_requirements [str "The system shall shall shall"] =
      [str "The system shall shall."] ∧
    ¬ (∀ r ∈ refine_requirements [str "The system shall shall shall"],
        5 ≤ (words r).length) := by
  constructor
  · decide
  · decide

/-- C5 (amended): every element of the Refiner output ends with a period and its
lowercased form begins with one of the approved lead phrases; the minimum word
count of 5 is not guaranteed (the fix-ups can remove words). -/
theorem c5_refined_invariant_amended (l : List Str) (r : Str)
    (h : r ∈ refine_requirements l) :
    endsWithDot r = true ∧
    (str "the system shall" <+: lower r ∨ str "the customer should" <+: lower r ∨
      str "the administrator should" <+: lower r) := by
  unfold refine_requirements at h
  obtain ⟨u, hu, rfl⟩ := List.mem_map.mp h
  exact ⟨(normalizeReq_invariant u).2, (normalizeReq_invariant u).1⟩

/-- Witness for C5 (amended) on the refined requirement "The system shall a a.". -/
theorem c5_refined_invariant_amended_witness :
    (str "The system shall a a." ∈ refine_requirements [str "The system shall a a"]) ∧
    (endsWithDot (str "The system shall a a.") = true ∧
      (str "the system shall" <+: lower (str "The system shall a a.") ∨
        str "the customer should" <+: lower (str "The system shall a a.") ∨
        str "the administrator should" <+: lower (str "The system shall a a."))) :=
  ⟨by decide, c5_refined_invariant_amended [str "The system shall a a"] _ (by decide)⟩

/-- C7: the Classifier assigns stakeholder "Customer"/"Administrator"/"System" from
the keyword rules with customer priority, type "Non-functional" iff a
non-functional keyword occurs, and a non-empty category list that equals
["General"] exactly when no taxonomy keyword matches. -/
theorem c7_classifier_fields (r : Str) :
    (classify_one r).stakeholder =
      (if containsSub (lower r) (str "customer") || containsSub (lower r) (str "client") ||
          containsSub (lower r) (str "user") then str "Customer"
       else if containsSub (lower r) (str "administrator") ||
          containsSub (lower r) (str "admin") || containsSub (lower r) (str "owner") then
         str "Administrator"
       else str "System") ∧
    ((classify_one r).type = str "Non-functional" ↔
      ∃ k ∈ non_functional_keywords, containsSub (lower r) k = true) ∧
    (classify_one r).categories ≠ [] ∧
    ((classify_one r).categories = [str "General"] ↔
      ∀ p ∈ category_keywords, ∀ k ∈ p.2, containsSub (lower r) k = false) := by
  have hbridge : rawCategoriesOf r = [] ↔
      ∀ p ∈ category_keywords, ∀ k ∈ p.2, containsSub (lower r) k = false := by
    unfold rawCategoriesOf
    rw [List.map_eq_nil_iff, List.filter_eq_nil_iff]
    constructor
    · intro h p hp k hk
      have h2 := h p hp
      rw [Bool.not_eq_true, List.any_eq_false] at h2
      exact Bool.eq_false_iff.mpr (h2 k hk)
    · intro h p hp
      rw [Bool.not_eq_true, List.any_eq_false]
      exact fun k hk => Bool.eq_false_iff.mp (h p hp k hk)
  refine ⟨rfl, ?_, ?_, ?_⟩
  · show typeOf r = str "Non-functional" ↔
      ∃ k ∈ non_functional_keywords, containsSub (lower r) k = true
    unfold typeOf
    by_cases h : non_functional_keywords.any (fun k => containsSub (lower r) k) = true
    · rw [if_pos h]
      exact ⟨fun _ => List.any_eq_true.mp h, fun _ => rfl⟩
    · rw [if_neg h]
      constructor
      · intro he
        exact absurd he (by decide)
      · intro ⟨k, hk, hc⟩
        exact absurd (List.any_eq_true.mpr ⟨k, hk, hc⟩) h
  · show categoriesOf r ≠ []
    unfold categoriesOf
    by_cases h : (rawCategoriesOf r).isEmpty = true
    · rw [if_pos h]
      simp
    · rw [if_neg h]
      intro h0
      rw [h0] at h
      exact h rfl
  · show categoriesOf r = [str "General"] ↔
      ∀ p ∈ category_keywords, ∀ k ∈ p.2, containsSub (lower r) k = false
    constructor
    · intro hg
      by_cases h : (rawCategoriesOf r).isEmpty = true
      · exact hbridge.mp (List.isEmpty_iff.mp h)
      · exfalso
        unfold categoriesOf at hg
        rw [if_neg h] at hg
        have hmem : str "General" ∈ rawCategoriesOf r := by
          rw [hg]
          exact List.mem_cons_self _ _
        unfold rawCategoriesOf at hmem
        obtain ⟨p, hp, hp2⟩ := List.mem_map.mp hmem
        have hne : ∀ q ∈ category_keywords, q.1 ≠ str "General" := by decide
        exact hne p (List.mem_of_mem_filter hp) hp2
    · intro hnone
      have hraw : rawCategoriesOf r = [] := hbridge.mpr hnone
      unfold categoriesOf
      rw [hraw]
      rfl

/-- C6: `extract_and_format` returns exactly the requirement texts of
`extract_requirements`, regrouped Customer-first, then Administrator, then System:
each group is the order-preserving filter of the classified output, the whole output
is a permutation of the ungrouped requirement texts, and each group is an
order-preserving subsequence of the ungrouped texts. -/
theorem c6_format_grouping (st : Str → List Str) (nlp : Str → Doc) (d : Str) :
    extract_and_format st nlp d =
      ((extract_requirements st nlp d).filter
          (fun r => r.stakeholder == str "Customer")).map Classified.requirement ++
        ((extract_requirements st nlp d).filter
          (fun r => r.stakeholder == str "Administrator")).map Classified.requirement ++
        ((extract_requirements st nlp d).filter
          (fun r => r.stakeholder == str "System")).map Classified.requirement ∧
    List.Perm (extract_and_format st nlp d)
      ((extract_requirements st nlp d).map Classified.requirement) ∧
    List.Sublist
      (((extract_requirements st nlp d).filter
        (fun r => r.stakeholder == str "Customer")).map Classified.requirement)
      ((extract_requirements st nlp d).map Classified.requirement) ∧
    List.Sublist
      (((extract_requirements st nlp d).filter
        (fun r => r.stakeholder == str "Administrator")).map Classified.requirement)
      ((extract_requirements st nlp d).map Classified.requirement) ∧
    List.Sublist
      (((extract_requirements st nlp d).filter
        (fun r => r.stakeholder == str "System")).map Classified.requirement)
      ((extract_requirements st nlp d).map Classified.requirement) := by
  have hmem : ∀ x ∈ extract_requirements st nlp d,
      x.stakeholder = str "Customer" ∨ x.stakeholder = str "Administrator" ∨
        x.stakeholder = str "System" := by
    intro x hx
    unfold extract_requirements classify_requirements at hx
    obtain ⟨r, hr, rfl⟩ := List.mem_map.mp hx
    exact stakeholder_three r
  refine ⟨rfl, ?_, (List.filter_sublist _).map _, (List.filter_sublist _).map _,
    (List.filter_sublist _).map _⟩
  have hp := (perm_three_groups _ hmem).map Classified.requirement
  rw [List.map_append, List.map_append] at hp
  exact hp

/-- C9: for a whitespace-only description (the external sentence tokenizer returning
only contiguous spans of its input), the Segmenter yields no sentences and
`extract_requirements` returns the empty list, with no failure. -/
theorem c9_empty_input (st : Str → List Str) (nlp : Str → Doc) (d : Str)
    (hws : ∀ c ∈ d, c.isWhitespace)
    (hst : ∀ t s, s ∈ st t → List.IsInfix s t) :
    preprocess_text st d = [] ∧ extract_requirements st nlp d = [] := by
  have hpre : preprocess_text st d = [] := by
    unfold preprocess_text
    rw [List.filter_eq_nil_iff]
    intro s hs
    have hsw : ∀ c ∈ s, c.isWhitespace := by
      intro c hc
      have hinf := hst _ _ hs
      exact collapseWs_ws hws c (hinf.sublist.subset hc)
    rw [words_nil_of_ws hsw]
    simp
  refine ⟨hpre, ?_⟩
  unfold extract_requirements extract_features
  rw [hpre]
  simp [identify_potential_requirements, formulate_requirements, refine_requirements,
    dedupLoop, classify_requirements]

/-- Witness for C9 on the two-space description with the identity tokenizer. -/
theorem c9_empty_input_witness :
    (∀ c ∈ str "  ", c.isWhitespace) ∧
    extract_requirements (fun t => [t]) (fun _ => ⟨[], [], []⟩) (str "  ") = [] := by
  refine ⟨by decide, (c9_empty_input (fun t => [t]) (fun _ => ⟨[], [], []⟩) (str "  ")
    (by decide) ?_).2⟩
  intro t s hs
  rcases List.mem_singleton.mp hs with rfl
  exact ⟨[], [], by simp⟩
